import Mathlib

/-!
# AMR decision engine for a DG spectral-element discretization

Shallow embedding, over exact rationals, of the adaptive-mesh-refinement
core described and exercised in the tutorial notebooks
(`02_Tuesday/amr.ipynb`): the element-to-block logical-coordinate map, the
split/join element identifiers, the power-monitor / truncation-error
estimator, and the hysteresis-safe AMR decision rule.

The coordinate maps are taken from the notebook's own code cells
(`dg_block_logical_coords = m*(xi + 2*element_index + 1) - 1` with
`m = 2**(-L)`, and its inverse `target_el_coord = (Xi+1)/m - 2*I - 1`).
The decision engine, split/join bookkeeping, truncation-error estimator and
power monitors are only invoked by the notebooks (they live in the external
simulation library), so those definitions are modelled from the spec, as
noted on each one.
-/

namespace SpectreAmr

/-- Element-logical to block-logical coordinate map, from the notebook cell
`dg_block_logical_coords = m*(dg_element_logical_coords.get(0) + 2*element_index + 1) - 1`
with `m = 2**(-level)`: `Xi = (xi + 2*I + 1) / 2^L - 1`. -/
def element_to_block (level segment_index : ℕ) (xi : ℚ) : ℚ :=
  (xi + 2 * segment_index + 1) / 2 ^ level - 1

/-- Block-logical to element-logical coordinate map, from the notebook cell
`target_el_coord = 1.1/m - 2*element_index - 1` (there `1.1 = Xi + 1` for the
target `Xi = 0.1`): `xi = (Xi + 1) * 2^L - 2*I - 1`. -/
def block_to_element (level segment_index : ℕ) (Xi : ℚ) : ℚ :=
  (Xi + 1) * 2 ^ level - 2 * segment_index - 1

/-- One-dimensional image of the reference interval `[-1, 1]` under
`element_to_block` at a given refinement level and segment index. -/
def element_image (level segment_index : ℕ) : Set ℚ :=
  element_to_block level segment_index '' Set.Icc (-1 : ℚ) 1

/-- Lower endpoint of `element_image level I`. -/
def segment_lo (level segment_index : ℕ) : ℚ :=
  2 * segment_index / 2 ^ level - 1

/-- Upper endpoint of `element_image level I`. -/
def segment_hi (level segment_index : ℕ) : ℚ :=
  2 * (segment_index + 1) / 2 ^ level - 1

theorem two_pow_pos_q (L : ℕ) : (0 : ℚ) < 2 ^ L := by positivity

theorem element_image_eq_Icc (L I : ℕ) :
    element_image L I = Set.Icc (segment_lo L I) (segment_hi L I) := by
  have hpow : (0 : ℚ) < 2 ^ L := two_pow_pos_q L
  ext Xi
  constructor
  · rintro ⟨xi, ⟨hlo, hhi⟩, rfl⟩
    unfold element_to_block segment_lo segment_hi
    constructor
    · have h1 : 2 * (I : ℚ) ≤ xi + 2 * I + 1 := by linarith
      gcongr
    · have h1 : xi + 2 * (I : ℚ) + 1 ≤ 2 * ((I : ℚ) + 1) := by linarith
      gcongr
  · rintro ⟨hlo, hhi⟩
    refine ⟨block_to_element L I Xi, ⟨?_, ?_⟩, ?_⟩
    · unfold segment_lo at hlo
      unfold block_to_element
      have h1 : 2 * (I : ℚ) / 2 ^ L ≤ Xi + 1 := by linarith
      have h2 : 2 * (I : ℚ) ≤ (Xi + 1) * 2 ^ L := (div_le_iff₀ hpow).mp h1
      linarith
    · unfold segment_hi at hhi
      unfold block_to_element
      have h1 : Xi + 1 ≤ 2 * ((I : ℚ) + 1) / 2 ^ L := by linarith
      have h2 : (Xi + 1) * 2 ^ L ≤ 2 * ((I : ℚ) + 1) := (le_div_iff₀ hpow).mp h1
      linarith
    · unfold element_to_block block_to_element
      field_simp
      ring

/-- C3: for `xi ∈ [-1,1]`, level `L` and segment index `I < 2^L`, the
element-to-block map returns `Xi = h * xi + b - 1` with `h = 2^{-L}` and
`b = h * (2*I + 1)`. -/
theorem element_to_block_formula (L I : ℕ) (xi : ℚ)
    (hxlo : -1 ≤ xi) (hxhi : xi ≤ 1) (hI : I < 2 ^ L) :
    element_to_block L I xi =
      (1 / 2 ^ L) * xi + (1 / 2 ^ L) * (2 * I + 1) - 1 := by
  unfold element_to_block
  have hpow : (0 : ℚ) < 2 ^ L := two_pow_pos_q L
  field_simp
  ring

/-- Witness for C3 at `L = 2`, `I = 3`, `xi = 1/2`. -/
theorem element_to_block_formula_witness :
    (-1 : ℚ) ≤ 1 / 2 ∧ (1 : ℚ) / 2 ≤ 1 ∧ 3 < 2 ^ 2 ∧
      element_to_block 2 3 (1 / 2) =
        (1 / 2 ^ 2) * (1 / 2 : ℚ) + (1 / 2 ^ 2) * (2 * (3 : ℕ) + 1) - 1 :=
  ⟨by norm_num, by norm_num, by norm_num,
    element_to_block_formula 2 3 (1 / 2) (by norm_num) (by norm_num) (by norm_num)⟩

/-- C4: `block_to_element` inverts `element_to_block` exactly (round trip). -/
theorem block_to_element_round_trip (L I : ℕ) (xi : ℚ)
    (hxlo : -1 ≤ xi) (hxhi : xi ≤ 1) (hI : I < 2 ^ L) :
    block_to_element L I (element_to_block L I xi) = xi := by
  unfold element_to_block block_to_element
  have hpow : (0 : ℚ) < 2 ^ L := two_pow_pos_q L
  field_simp
  ring

/-- Witness for C4 at `L = 3`, `I = 5`, `xi = -1/3`. -/
theorem block_to_element_round_trip_witness :
    (-1 : ℚ) ≤ -1 / 3 ∧ (-1 : ℚ) / 3 ≤ 1 ∧ 5 < 2 ^ 3 ∧
      block_to_element 3 5 (element_to_block 3 5 (-1 / 3)) = -1 / 3 :=
  ⟨by norm_num, by norm_num, by norm_num,
    block_to_element_round_trip 3 5 (-1 / 3) (by norm_num) (by norm_num) (by norm_num)⟩

/-- The segment index at level `L` whose image contains a given block-logical
coordinate (ties at shared endpoints resolved towards the lower segment at the
right domain boundary). -/
def segment_of (L : ℕ) (Xi : ℚ) : ℕ :=
  min (Int.toNat ⌊(Xi + 1) * 2 ^ L / 2⌋) (2 ^ L - 1)

theorem segment_of_spec (L : ℕ) (Xi : ℚ) (hlo : -1 ≤ Xi) (hhi : Xi ≤ 1) :
    segment_of L Xi < 2 ^ L ∧ Xi ∈ element_image L (segment_of L Xi) := by
  have hpow : (0 : ℚ) < 2 ^ L := two_pow_pos_q L
  have hpn : 1 ≤ 2 ^ L := Nat.one_le_two_pow
  set u : ℚ := (Xi + 1) * 2 ^ L / 2 with hu
  have hu0 : 0 ≤ u := by
    apply div_nonneg _ (by norm_num)
    nlinarith
  have huhi : u ≤ 2 ^ L := by
    rw [hu, div_le_iff₀ (by norm_num : (0:ℚ) < 2)]
    nlinarith
  have hXiu : Xi = 2 * u / 2 ^ L - 1 := by
    rw [hu]; field_simp
  -- whichever segment index comes out, membership reduces to I ≤ u ≤ I + 1
  have key : ∀ I : ℕ, (I : ℚ) ≤ u → u ≤ I + 1 → Xi ∈ element_image L I := by
    intro I h1 h2
    rw [element_image_eq_Icc]
    constructor
    · unfold segment_lo
      rw [hXiu]
      have : 2 * (I : ℚ) ≤ 2 * u := by linarith
      gcongr
    · unfold segment_hi
      rw [hXiu]
      have : 2 * u ≤ 2 * ((I : ℚ) + 1) := by linarith
      gcongr
  rcases le_or_lt (Int.toNat ⌊u⌋) (2 ^ L - 1) with hc | hc
  · have hseg : segment_of L Xi = Int.toNat ⌊u⌋ := by
      unfold segment_of
      rw [← hu]
      omega
    have hfl0 : 0 ≤ ⌊u⌋ := Int.floor_nonneg.mpr hu0
    have hcast : ((Int.toNat ⌊u⌋ : ℕ) : ℚ) = (⌊u⌋ : ℚ) := by
      exact_mod_cast Int.toNat_of_nonneg hfl0
    refine ⟨by rw [hseg]; omega, ?_⟩
    rw [hseg]
    apply key
    · rw [hcast]; exact Int.floor_le u
    · rw [hcast]
      exact le_of_lt (Int.lt_floor_add_one u)
  · have hseg : segment_of L Xi = 2 ^ L - 1 := by
      unfold segment_of
      rw [← hu]
      omega
    have hfl : (((2 ^ L : ℕ) : ℤ)) ≤ ⌊u⌋ := by omega
    have hge : (2 ^ L : ℚ) ≤ u := by
      calc (2 ^ L : ℚ) = (((2 ^ L : ℕ) : ℤ) : ℚ) := by push_cast; ring
        _ ≤ (⌊u⌋ : ℚ) := by exact_mod_cast hfl
        _ ≤ u := Int.floor_le u
    have hueq : u = 2 ^ L := le_antisymm huhi hge
    have hcast : ((2 ^ L - 1 : ℕ) : ℚ) = (2 ^ L : ℚ) - 1 := by
      push_cast [hpn]
      ring
    refine ⟨by rw [hseg]; omega, ?_⟩
    rw [hseg]
    apply key
    · rw [hcast, hueq]; linarith
    · rw [hcast, hueq]; linarith

/-- C6: at a fixed refinement level the images of `[-1,1]` under
`element_to_block` are sub-intervals of `[-1,1]`, their union over all
segment indices is exactly `[-1,1]`, and two distinct images meet at most
in shared endpoints. -/
theorem element_images_tile (L I J : ℕ) (hI : I < 2 ^ L) (hJ : J < 2 ^ L) :
    element_image L I ⊆ Set.Icc (-1 : ℚ) 1 ∧
    (⋃ K ∈ Finset.range (2 ^ L), element_image L K) = Set.Icc (-1 : ℚ) 1 ∧
    (I ≠ J →
      element_image L I ∩ element_image L J ⊆
        {segment_hi L I, segment_hi L J}) := by
  have hpow : (0 : ℚ) < 2 ^ L := two_pow_pos_q L
  have hsub : ∀ K : ℕ, K < 2 ^ L → element_image L K ⊆ Set.Icc (-1 : ℚ) 1 := by
    intro K hK x hx
    rw [element_image_eq_Icc] at hx
    obtain ⟨h1, h2⟩ := hx
    unfold segment_lo at h1
    unfold segment_hi at h2
    constructor
    · have : (0 : ℚ) ≤ 2 * K / 2 ^ L := by positivity
      linarith
    · have hK1 : (K : ℚ) + 1 ≤ 2 ^ L := by
        have : (K : ℚ) + 1 ≤ ((2 ^ L : ℕ) : ℚ) := by exact_mod_cast hK
        ·  calc (K : ℚ) + 1 ≤ ((2 ^ L : ℕ) : ℚ) := this
            _ = 2 ^ L := by push_cast; ring
      have : 2 * ((K : ℚ) + 1) / 2 ^ L ≤ 2 := by
        rw [div_le_iff₀ hpow]; linarith
      linarith
  refine ⟨hsub I hI, ?_, ?_⟩
  · apply Set.eq_of_subset_of_subset
    · intro x hx
      simp only [Set.mem_iUnion] at hx
      obtain ⟨K, hK, hxK⟩ := hx
      exact hsub K (Finset.mem_range.mp hK) hxK
    · intro Xi hXi
      obtain ⟨hs, hmem⟩ := segment_of_spec L Xi hXi.1 hXi.2
      simp only [Set.mem_iUnion]
      exact ⟨segment_of L Xi, Finset.mem_range.mpr hs, hmem⟩
  · intro hne x hx
    obtain ⟨hxI, hxJ⟩ := hx
    rw [element_image_eq_Icc] at hxI hxJ
    have sep : ∀ A B : ℕ, A < B → segment_hi L A ≤ segment_lo L B := by
      intro A B hAB
      unfold segment_hi segment_lo
      have : (A : ℚ) + 1 ≤ (B : ℚ) := by exact_mod_cast hAB
      have h2 : 2 * ((A : ℚ) + 1) ≤ 2 * (B : ℚ) := by linarith
      gcongr
    rcases lt_or_gt_of_ne hne with h | h
    · have hx1 : x = segment_hi L I :=
        le_antisymm hxI.2 (le_trans (sep I J h) hxJ.1)
      exact Set.mem_insert_iff.mpr (Or.inl hx1)
    · have hx1 : x = segment_hi L J :=
        le_antisymm hxJ.2 (le_trans (sep J I h) hxI.1)
      exact Set.mem_insert_iff.mpr (Or.inr (Set.mem_singleton_iff.mpr hx1))

/-- Witness for C6 at `L = 1`, `I = 0`, `J = 1`. -/
theorem element_images_tile_witness :
    0 < 2 ^ 1 ∧ 1 < 2 ^ 1 ∧
      ((⋃ K ∈ Finset.range (2 ^ 1), element_image 1 K) = Set.Icc (-1 : ℚ) 1) :=
  ⟨by norm_num, by norm_num,
    (element_images_tile 1 0 1 (by norm_num) (by norm_num)).2.1⟩

/-- Per-element, per-axis AMR decision. -/
inductive AmrDecision where
  | IncreaseOrder
  | DecreaseOrder
  | Hold
  | Split
  | Join
deriving DecidableEq, Repr

/-- Non-fatal condition surfaced as a warning by the decision engine. -/
inductive AmrWarning where
  | AccuracyUnattainable
deriving DecidableEq, Repr

/-- Configuration of the AMR decision engine: target truncation error and
refinement bounds. -/
structure AmrConfig where
  target : ℚ
  min_order : ℕ
  max_order : ℕ
  max_level : ℕ
deriving DecidableEq, Repr

/-- Decision plus optional warning emitted for one element on one axis. -/
structure AmrOutcome where
  decision : AmrDecision
  warning : Option AmrWarning
deriving DecidableEq, Repr

/-- Modelled from the spec: the hysteresis transition rule of the AMR
decision engine (the notebooks only describe the `TruncationError` AMR
criterion; its implementation lives in the external simulation library).
Given the truncation-error estimates `E_N` and `E_{N-1}`, the element's
current order and level, and whether its siblings agree to join:
if `E_N > T` refine (increase order, else split, else warn); else if
`E_{N-1} < T` coarsen (decrease order, else join, else hold); else hold
(the dead band). -/
def amr_decide (cfg : AmrConfig) (EN ENm1 : ℚ) (order level : ℕ)
    (siblings_agree : Bool) : AmrOutcome :=
  if cfg.target < EN then
    if order < cfg.max_order then ⟨.IncreaseOrder, none⟩
    else if level < cfg.max_level then ⟨.Split, none⟩
    else ⟨.Hold, some .AccuracyUnattainable⟩
  else if ENm1 < cfg.target then
    if cfg.min_order ≤ order - 1 then ⟨.DecreaseOrder, none⟩
    else if siblings_agree ∧ 0 < level then ⟨.Join, none⟩
    else ⟨.Hold, none⟩
  else ⟨.Hold, none⟩

/-- C1: case analysis of one AMR-cycle evaluation of the decision engine,
under the data-model invariants `min_order ≤ order ≤ max_order` and
`level ≤ max_level`: increase order when `E_N > T` below the order bound;
split when the order bound is reached but not the level bound; hold with an
`AccuracyUnattainable` warning when both bounds are reached; decrease order
when `E_N ≤ T`, `E_{N-1} < T` and the decremented order stays within
bounds; join when instead the order bound blocks coarsening, the siblings
agree and `level > 0`; hold otherwise. -/
theorem amr_decide_cases (cfg : AmrConfig) (EN ENm1 : ℚ) (order level : ℕ)
    (siblings_agree : Bool)
    (hT : 0 < cfg.target)
    (h1 : cfg.min_order ≤ order) (h2 : order ≤ cfg.max_order)
    (h3 : level ≤ cfg.max_level) :
    (cfg.target < EN → order < cfg.max_order →
      amr_decide cfg EN ENm1 order level siblings_agree =
        ⟨.IncreaseOrder, none⟩) ∧
    (cfg.target < EN → order = cfg.max_order → level < cfg.max_level →
      amr_decide cfg EN ENm1 order level siblings_agree = ⟨.Split, none⟩) ∧
    (cfg.target < EN → order = cfg.max_order → level = cfg.max_level →
      amr_decide cfg EN ENm1 order level siblings_agree =
        ⟨.Hold, some .AccuracyUnattainable⟩) ∧
    (EN ≤ cfg.target → ENm1 < cfg.target → cfg.min_order ≤ order - 1 →
      amr_decide cfg EN ENm1 order level siblings_agree =
        ⟨.DecreaseOrder, none⟩) ∧
    (EN ≤ cfg.target → ENm1 < cfg.target → order - 1 < cfg.min_order →
      siblings_agree = true → 0 < level →
      amr_decide cfg EN ENm1 order level siblings_agree = ⟨.Join, none⟩) ∧
    (EN ≤ cfg.target → ENm1 < cfg.target → order - 1 < cfg.min_order →
      ¬(siblings_agree = true ∧ 0 < level) →
      amr_decide cfg EN ENm1 order level siblings_agree = ⟨.Hold, none⟩) ∧
    (EN ≤ cfg.target → cfg.target ≤ ENm1 →
      amr_decide cfg EN ENm1 order level siblings_agree = ⟨.Hold, none⟩) := by
  unfold amr_decide
  refine ⟨?_, ?_, ?_, ?_, ?_, ?_, ?_⟩ <;> intros <;>
    split_ifs <;> first
      | rfl
      | (exfalso; omega)
      | (exfalso; linarith)
      | (exfalso; simp_all)

/-- Witness for C1: `T = 1`, `E_N = 2`, `E_{N-1} = 2`, order 3 in bounds
`[2, 5]`, level 0 of max 3, yielding `IncreaseOrder`. -/
theorem amr_decide_cases_witness :
    (0 : ℚ) < 1 ∧ (2 : ℕ) ≤ 3 ∧ (3 : ℕ) ≤ 5 ∧ (0 : ℕ) ≤ 3 ∧ (1 : ℚ) < 2 ∧
      amr_decide ⟨1, 2, 5, 3⟩ 2 2 3 0 true = ⟨.IncreaseOrder, none⟩ :=
  ⟨by norm_num, by norm_num, by norm_num, by norm_num, by norm_num,
    (amr_decide_cases ⟨1, 2, 5, 3⟩ 2 2 3 0 true (by norm_num) (by norm_num)
      (by norm_num) (by norm_num)).1 (by norm_num) (by norm_num)⟩

/-- C2: the dead band. When `T` lies between the two estimates
(`E_{N-1} ≥ T` and `E_N ≤ T`) the engine holds; and at the exact boundary
`E_N = T` the engine never emits `IncreaseOrder`, so two consecutive
AMR cycles evaluated on an unchanged solution (hence identical inputs)
cannot alternate between `IncreaseOrder` and `DecreaseOrder`. -/
theorem amr_dead_band (cfg : AmrConfig) (EN ENm1 : ℚ) (order level : ℕ)
    (siblings_agree : Bool) (hT : 0 < cfg.target) :
    (cfg.target ≤ ENm1 → EN ≤ cfg.target →
      amr_decide cfg EN ENm1 order level siblings_agree = ⟨.Hold, none⟩) ∧
    (EN = cfg.target →
      (amr_decide cfg EN ENm1 order level siblings_agree).decision ≠
        .IncreaseOrder ∧
      ¬(((amr_decide cfg EN ENm1 order level siblings_agree).decision =
            .IncreaseOrder ∧
          (amr_decide cfg EN ENm1 order level siblings_agree).decision =
            .DecreaseOrder) ∨
        ((amr_decide cfg EN ENm1 order level siblings_agree).decision =
            .DecreaseOrder ∧
          (amr_decide cfg EN ENm1 order level siblings_agree).decision =
            .IncreaseOrder))) := by
  constructor
  · intro hEm hEN
    unfold amr_decide
    split_ifs <;> first | rfl | (exfalso; linarith)
  · intro hEN
    have hni : (amr_decide cfg EN ENm1 order level siblings_agree).decision ≠
        .IncreaseOrder := by
      unfold amr_decide
      split_ifs <;> simp_all
    refine ⟨hni, ?_⟩
    rintro (⟨ha, _⟩ | ⟨_, hb⟩)
    · exact hni ha
    · exact hni hb

/-- Witness for C2 at `T = 1`, `E_N = 1`, `E_{N-1} = 2`. -/
theorem amr_dead_band_witness :
    (0 : ℚ) < 1 ∧ (1 : ℚ) ≤ 2 ∧
      amr_decide ⟨1, 2, 5, 3⟩ 1 2 3 0 true = ⟨.Hold, none⟩ :=
  ⟨by norm_num, by norm_num,
    (amr_dead_band ⟨1, 2, 5, 3⟩ 1 2 3 0 true (by norm_num)).1
      (by norm_num) (by norm_num)⟩

/-- Identifier of an element within a block: per-dimension refinement level
and per-dimension segment index (`segment_index i ∈ [0, 2^(level i) - 1]`). -/
@[ext]
structure ElementId (d : ℕ) where
  level : Fin d → ℕ
  segment_index : Fin d → ℕ
deriving DecidableEq

/-- Modelled from the spec: splitting element `(level, I)` along dimension
`i` produces the two children with `level + 1` in dimension `i` and segment
indices `2*I` and `2*I + 1` in dimension `i` (all other dimensions
unchanged). -/
def split_children {d : ℕ} (e : ElementId d) (i : Fin d) :
    ElementId d × ElementId d :=
  (⟨Function.update e.level i (e.level i + 1),
    Function.update e.segment_index i (2 * e.segment_index i)⟩,
   ⟨Function.update e.level i (e.level i + 1),
    Function.update e.segment_index i (2 * e.segment_index i + 1)⟩)

/-- Modelled from the spec: joining two sibling elements along dimension `i`
yields the parent (level decremented in dimension `i`, segment index halved);
returns `none` unless the two elements really are the sibling pair produced
by one split (equal levels, positive level in dimension `i`, equal segment
indices off dimension `i`, and segment indices `2*K` and `2*K + 1` in
dimension `i`). -/
def join_elements {d : ℕ} (c0 c1 : ElementId d) (i : Fin d) :
    Option (ElementId d) :=
  if c0.level = c1.level ∧ 0 < c0.level i ∧
      (∀ j, j ≠ i → c0.segment_index j = c1.segment_index j) ∧
      c0.segment_index i % 2 = 0 ∧
      c1.segment_index i = c0.segment_index i + 1 then
    some ⟨Function.update c0.level i (c0.level i - 1),
          Function.update c0.segment_index i (c0.segment_index i / 2)⟩
  else none

/-- Modelled from the spec: a join is realized only when every sibling emits
`Join` in the same cycle; otherwise no join occurs. -/
def realize_join {d : ℕ} (dec0 dec1 : AmrDecision) (c0 c1 : ElementId d)
    (i : Fin d) : Option (ElementId d) :=
  if dec0 = .Join ∧ dec1 = .Join then join_elements c0 c1 i else none

/-- C5: splitting `(level, I)` along dimension `i` produces exactly the two
children with `level + 1` and segment indices `2*I` and `2*I + 1` in
dimension `i`; when both siblings emit `Join`, joining them recovers exactly
the pre-split parent; and if either sibling does not emit `Join`, no join
occurs. -/
theorem split_join_inverse {d : ℕ} (e c0 c1 : ElementId d) (i : Fin d)
    (dec0 dec1 : AmrDecision) :
    ((split_children e i).1.level i = e.level i + 1 ∧
     (split_children e i).2.level i = e.level i + 1 ∧
     (split_children e i).1.segment_index i = 2 * e.segment_index i ∧
     (split_children e i).2.segment_index i = 2 * e.segment_index i + 1 ∧
     (∀ j, j ≠ i → (split_children e i).1.level j = e.level j ∧
        (split_children e i).2.level j = e.level j ∧
        (split_children e i).1.segment_index j = e.segment_index j ∧
        (split_children e i).2.segment_index j = e.segment_index j)) ∧
    realize_join .Join .Join (split_children e i).1 (split_children e i).2 i =
      some e ∧
    (dec0 ≠ .Join ∨ dec1 ≠ .Join →
      realize_join dec0 dec1 c0 c1 i = none) := by
  refine ⟨?_, ?_, ?_⟩
  · refine ⟨?_, ?_, ?_, ?_, ?_⟩
    · simp [split_children]
    · simp [split_children]
    · simp [split_children]
    · simp [split_children]
    · intro j hj
      simp [split_children, Function.update_noteq hj]
  · unfold realize_join
    rw [if_pos ⟨rfl, rfl⟩]
    unfold join_elements split_children
    rw [if_pos]
    · congr 1
      ext j
      · by_cases hj : j = i
        · subst hj
          simp
        · simp [Function.update_noteq hj]
      · by_cases hj : j = i
        · subst hj
          simp [Nat.mul_div_cancel_left _ (by norm_num : 0 < 2)]
        · simp [Function.update_noteq hj]
    · refine ⟨rfl, ?_, ?_, ?_, ?_⟩
      · simp
      · intro j hj
        simp [Function.update_noteq hj]
      · simp [Nat.mul_mod_right]
      · simp
  · intro h
    unfold realize_join
    rw [if_neg]
    rintro ⟨h0, h1⟩
    rcases h with h | h
    · exact h h0
    · exact h h1

/-- Witness for C5 in one dimension at `e = (level 2, segment 3)`. -/
theorem split_join_inverse_witness :
    realize_join .Join .Join
        (split_children (⟨fun _ => 2, fun _ => 3⟩ : ElementId 1) 0).1
        (split_children (⟨fun _ => 2, fun _ => 3⟩ : ElementId 1) 0).2 0 =
      some ⟨fun _ => 2, fun _ => 3⟩ ∧
    realize_join .Hold .Join (⟨fun _ => 3, fun _ => 6⟩ : ElementId 1)
        ⟨fun _ => 3, fun _ => 7⟩ 0 = none :=
  ⟨(split_join_inverse (⟨fun _ => 2, fun _ => 3⟩ : ElementId 1)
      ⟨fun _ => 3, fun _ => 6⟩ ⟨fun _ => 3, fun _ => 7⟩ 0 .Hold .Join).2.1,
   (split_join_inverse (⟨fun _ => 2, fun _ => 3⟩ : ElementId 1)
      ⟨fun _ => 3, fun _ => 6⟩ ⟨fun _ => 3, fun _ => 7⟩ 0 .Hold .Join).2.2
     (Or.inl (by simp))⟩

/-- Error taxonomy of the truncation-error estimator. -/
inductive AmrError where
  | InsufficientResolutionError
deriving DecidableEq, Repr

/-- Modelled from the spec: the truncation-error estimator. `E_N` is the
magnitude of the highest power monitor and `E_{N-1}` the next-highest one;
both require at least 3 modes, so a mesh of order below 3 signals
`InsufficientResolutionError`. -/
def truncation_error_estimates (monitors : List ℚ) :
    Except AmrError (ℚ × ℚ) :=
  if h : 3 ≤ monitors.length then
    .ok (|monitors.get ⟨monitors.length - 1, by omega⟩|,
         |monitors.get ⟨monitors.length - 2, by omega⟩|)
  else .error .InsufficientResolutionError

/-- Modelled from the spec: the per-element decision step. An
`InsufficientResolutionError` from the estimator is recovered by forcing an
`IncreaseOrder`/`Split` decision instead of evaluating the hysteresis rule
(the element's order is the number of power monitors). -/
def element_amr_decision (cfg : AmrConfig) (monitors : List ℚ)
    (level : ℕ) (siblings_agree : Bool) : AmrOutcome :=
  match truncation_error_estimates monitors with
  | .ok (EN, ENm1) =>
      amr_decide cfg EN ENm1 monitors.length level siblings_agree
  | .error _ =>
      if monitors.length < cfg.max_order then ⟨.IncreaseOrder, none⟩
      else ⟨.Split, none⟩

/-- Modelled from the spec: the domain-wide AMR cycle evaluates the
per-element rule on every element of the domain; element-local errors are
recovered locally and never abort the cycle. -/
def amr_cycle (cfg : AmrConfig)
    (elements : List (List ℚ × ℕ × Bool)) : List AmrOutcome :=
  elements.map fun e => element_amr_decision cfg e.1 e.2.1 e.2.2

/-- C7: the estimator raises `InsufficientResolutionError` exactly when the
order (number of modes) is below 3; the error is recovered by forcing an
`IncreaseOrder`/`Split` decision for that element instead of the hysteresis
rule; and the domain-wide cycle always completes, producing one decision
per element. -/
theorem insufficient_resolution_handling (cfg : AmrConfig)
    (monitors : List ℚ) (level : ℕ) (siblings_agree : Bool)
    (elements : List (List ℚ × ℕ × Bool)) :
    (truncation_error_estimates monitors =
        .error .InsufficientResolutionError ↔ monitors.length < 3) ∧
    (monitors.length < 3 →
      element_amr_decision cfg monitors level siblings_agree =
        if monitors.length < cfg.max_order then ⟨.IncreaseOrder, none⟩
        else ⟨.Split, none⟩) ∧
    (amr_cycle cfg elements).length = elements.length := by
  have herr : truncation_error_estimates monitors =
      .error .InsufficientResolutionError ↔ monitors.length < 3 := by
    unfold truncation_error_estimates
    by_cases h : 3 ≤ monitors.length
    · rw [dif_pos h]
      constructor
      · intro hcontra
        exact absurd hcontra (by simp)
      · intro hlt
        omega
    · rw [dif_neg h]
      constructor
      · intro _
        omega
      · intro _
        rfl
  refine ⟨herr, ?_, List.length_map _ _⟩
  intro hlt
  unfold element_amr_decision
  rw [herr.mpr hlt]

/-- Witness for C7 with a 2-monitor element (order 2) and `max_order = 5`. -/
theorem insufficient_resolution_handling_witness :
    ([(1 : ℚ), 2].length < 3) ∧
      element_amr_decision ⟨1, 2, 5, 3⟩ [(1 : ℚ), 2] 0 true =
        ⟨.IncreaseOrder, none⟩ :=
  ⟨by norm_num,
    by
      have h := (insufficient_resolution_handling ⟨1, 2, 5, 3⟩ [(1 : ℚ), 2] 0
        true []).2.1 (by norm_num)
      rw [h]
      norm_num⟩

/-- The Legendre polynomials (the modal basis of the DG representation in
the notebook), via the three-term recurrence
`(n+2) P_{n+2} = (2n+3) X P_{n+1} - (n+1) P_n`. -/
noncomputable def legendre : ℕ → Polynomial ℚ
  | 0 => 1
  | 1 => Polynomial.X
  | n + 2 =>
      Polynomial.C ((2 * n + 3 : ℚ) / (n + 2)) *
          (Polynomial.X * legendre (n + 1)) -
        Polynomial.C ((n + 1 : ℚ) / (n + 2)) * legendre n

theorem legendre_deg_lc :
    ∀ n : ℕ, (legendre n).natDegree ≤ n ∧ 0 < (legendre n).coeff n := by
  intro n
  induction n using Nat.strong_induction_on with
  | _ n ih =>
    match n with
    | 0 => exact ⟨by simp [legendre], by simp [legendre]⟩
    | 1 => exact ⟨by simp [legendre], by simp [legendre]⟩
    | (m + 2) =>
      obtain ⟨hd1, hc1⟩ := ih (m + 1) (by omega)
      obtain ⟨hd0, hc0⟩ := ih m (by omega)
      have ha : (0 : ℚ) < (2 * m + 3 : ℚ) / (m + 2) := by positivity
      constructor
      · show (legendre (m + 2)).natDegree ≤ m + 2
        unfold legendre
        apply le_trans (Polynomial.natDegree_sub_le _ _)
        apply max_le
        · apply le_trans (Polynomial.natDegree_C_mul_le _ _)
          apply le_trans Polynomial.natDegree_mul_le
          have hX : (Polynomial.X : Polynomial ℚ).natDegree = 1 :=
            Polynomial.natDegree_X
          omega
        · exact le_trans (Polynomial.natDegree_C_mul_le _ _) (by omega)
      · show 0 < (legendre (m + 2)).coeff (m + 2)
        unfold legendre
        have h1 : (Polynomial.X * legendre (m + 1)).coeff (m + 2) =
            (legendre (m + 1)).coeff (m + 1) :=
          Polynomial.coeff_X_mul (legendre (m + 1)) (m + 1)
        have h2 : (legendre m).coeff (m + 2) = 0 :=
          Polynomial.coeff_eq_zero_of_natDegree_lt (by omega)
        rw [Polynomial.coeff_sub, Polynomial.coeff_C_mul,
          Polynomial.coeff_C_mul, h1, h2, mul_zero, sub_zero]
        exact mul_pos ha hc1

/-- Modelled from the spec: the power monitor of mode `i` is the absolute
value of the `i`-th modal (spectral) coefficient. -/
def power_monitor {N : ℕ} (c : Fin N → ℚ) (i : Fin N) : ℚ := |c i|

/-- Modelled from the spec: `c` is the modal-coefficient vector of the nodal
values `u` on the collocation points `x` when the Legendre combination with
coefficients `c` reproduces `u` at every collocation point (the
Vandermonde-like system of the nodal-to-modal transform). -/
def represents_nodal_values {N : ℕ} (x u c : Fin N → ℚ) : Prop :=
  ∀ j, (∑ i : Fin N, c i * (legendre (i : ℕ)).eval (x j)) = u j

/-- C8: if the nodal values are those of a polynomial of degree at most `k`
sampled exactly at `N > k` distinct collocation points, every power monitor
of mode index greater than `k` is exactly zero. -/
theorem power_monitors_vanish (N k : ℕ) (x : Fin N → ℚ)
    (hx : Function.Injective x) (p : Polynomial ℚ) (hp : p.natDegree ≤ k)
    (hk : k < N) (c : Fin N → ℚ)
    (hc : represents_nodal_values x (fun j => p.eval (x j)) c) :
    ∀ i : Fin N, k < (i : ℕ) → power_monitor c i = 0 := by
  classical
  set q : Polynomial ℚ :=
    ∑ i : Fin N, Polynomial.C (c i) * legendre (i : ℕ) with hq
  have hqdeg : q.natDegree < N := by
    have : q.natDegree ≤ N - 1 := by
      apply Polynomial.natDegree_sum_le_of_forall_le
      intro i _
      apply le_trans (Polynomial.natDegree_C_mul_le _ _)
      have := (legendre_deg_lc (i : ℕ)).1
      have hi := i.isLt
      omega
    omega
  have heval : ∀ j, q.eval (x j) = p.eval (x j) := by
    intro j
    rw [hq, Polynomial.eval_finset_sum]
    have := hc j
    simpa [Polynomial.eval_mul] using this
  have hqp : q = p := by
    have hzero : q - p = 0 := by
      apply Polynomial.eq_zero_of_natDegree_lt_card_of_eval_eq_zero _ hx
      · intro j
        rw [Polynomial.eval_sub, heval j, sub_self]
      · apply lt_of_le_of_lt (Polynomial.natDegree_sub_le _ _)
        rw [Fintype.card_fin]
        exact max_lt hqdeg (lt_of_le_of_lt hp hk)
    have hqp' : q - p + p = 0 + p := by rw [hzero]
    simpa using hqp'
  intro i hi
  by_contra hci
  have hci' : c i ≠ 0 := fun h => hci (by simp [power_monitor, h])
  set S : Finset (Fin N) :=
    Finset.univ.filter (fun j => k < (j : ℕ) ∧ c j ≠ 0) with hS
  have hSne : S.Nonempty := ⟨i, by simp [hS, hi, hci']⟩
  obtain ⟨m, hmS, hmax⟩ := S.exists_max_image (fun j => (j : ℕ)) hSne
  have hmprop : k < (m : ℕ) ∧ c m ≠ 0 := by
    have := Finset.mem_filter.mp hmS
    exact this.2
  have hcoeffq : q.coeff (m : ℕ) = c m * (legendre (m : ℕ)).coeff (m : ℕ) := by
    rw [hq, Polynomial.finset_sum_coeff]
    rw [Finset.sum_eq_single_of_mem m (Finset.mem_univ m)]
    · rw [Polynomial.coeff_C_mul]
    · intro j _ hj
      rw [Polynomial.coeff_C_mul]
      rcases lt_trichotomy ((j : ℕ)) ((m : ℕ)) with h | h | h
      · rw [Polynomial.coeff_eq_zero_of_natDegree_lt
          (lt_of_le_of_lt (legendre_deg_lc (j : ℕ)).1 h), mul_zero]
      · exact absurd (Fin.ext h) hj
      · have hjz : c j = 0 := by
          by_contra hcj
          have hjS : j ∈ S := by
            simp only [hS, Finset.mem_filter, Finset.mem_univ, true_and]
            exact ⟨lt_trans hmprop.1 h, hcj⟩
          exact absurd (hmax j hjS) (by omega)
        rw [hjz, zero_mul]
  have hcoeffp : p.coeff (m : ℕ) = 0 :=
    Polynomial.coeff_eq_zero_of_natDegree_lt (lt_of_le_of_lt hp hmprop.1)
  rw [hqp, hcoeffp] at hcoeffq
  have := (legendre_deg_lc (m : ℕ)).2
  have : c m = 0 := by
    rcases mul_eq_zero.mp hcoeffq.symm with h | h
    · exact h
    · exact absurd h (ne_of_gt this)
  exact hmprop.2 this

/-- Witness for C8: the degree-1 polynomial `X` sampled at the 3-point
Gauss-Lobatto grid `{-1, 0, 1}` has modal coefficients `(0, 1, 0)`, and the
monitor of mode 2 is zero. -/
theorem power_monitors_vanish_witness :
    Function.Injective (![-1, 0, 1] : Fin 3 → ℚ) ∧
      (Polynomial.X : Polynomial ℚ).natDegree ≤ 1 ∧ 1 < 3 ∧
      represents_nodal_values (![-1, 0, 1] : Fin 3 → ℚ)
        (fun j => Polynomial.eval ((![-1, 0, 1] : Fin 3 → ℚ) j) Polynomial.X)
        ![0, 1, 0] ∧
      power_monitor (![0, 1, 0] : Fin 3 → ℚ) 2 = 0 := by
  have hinj : Function.Injective (![-1, 0, 1] : Fin 3 → ℚ) := by decide
  have hdeg : (Polynomial.X : Polynomial ℚ).natDegree ≤ 1 := by
    simp [Polynomial.natDegree_X]
  have hrep : represents_nodal_values (![-1, 0, 1] : Fin 3 → ℚ)
      (fun j => Polynomial.eval ((![-1, 0, 1] : Fin 3 → ℚ) j) Polynomial.X)
      ![0, 1, 0] := by
    intro j
    fin_cases j <;> simp [Fin.sum_univ_three, legendre]
  exact ⟨hinj, hdeg, by norm_num,  hrep,
    power_monitors_vanish 3 1 (![-1, 0, 1] : Fin 3 → ℚ) hinj Polynomial.X
      hdeg (by norm_num) ![0, 1, 0] hrep 2 (by norm_num)⟩

end SpectreAmr
